import Mathlib

/-!
# Verification of the expression-tree calculator (`src/exprtree.rs`)

This file is a shallow embedding of the calculator pipeline
`string → tokens → postfix tokens → tree → value` from `src/exprtree.rs`,
together with theorems settling the specification claims.

Modelling conventions:

* Rust `Vec` used as a stack (push/pop at the end) is modelled as a Lean
  `List` whose *head* is the `Vec`'s end (the top of the stack); `Vec::get(0)`
  is therefore `List.getLast?` of the model.
* `f64` values are modelled as exact rationals `ℚ`.  Every numeric literal,
  intermediate value, and result appearing in the claims under verification
  is a small integer, on which IEEE-754 binary64 arithmetic (`+ - * powf`)
  is exact, so the rational model agrees with the Rust program there.
  Division is rational division (agreeing with `f64` division whenever the
  divisor is nonzero and the quotient representable); the transcendental
  functions (`ln`, `log`, `sin`, ...) are kept as parameters of evaluation
  (`TransFns`) because no claim depends on their values.
* `fail!(...)` aborts the Rust task; a function that can abort is modelled
  with an `Option`/`Except` result, `none`/`.error` standing for the abort.
* Input strings are ASCII (as the spec requires), so the Rust code's
  byte-length/char-index mixing is the plain character list traversal
  modelled here.
-/

/-- Token classification, from `enum TokenType` in `exprtree.rs`. -/
inductive TokenType where
  | Numeric
  | Alphabetical
  | Functional
  | Operator
  | LeftParen
  | RightParen
  | Invalid
  deriving DecidableEq, Repr

/-- `TokenType::of_char`: classify a single character. -/
def TokenType.of_char (c : Char) : TokenType :=
  if "0123456789.".data.contains c then .Numeric
  else if "abcdefghijklmnopqrstuvwxyz".data.contains c then .Alphabetical
  else if "+-*/%^".data.contains c then .Operator
  else if c = '(' then .LeftParen
  else if c = ')' then .RightParen
  else .Invalid

/-- `TokenType::of_alphabeticals`: reclassify an accumulated name run.
Only `"pi"` is mapped to `Numeric`; every other name becomes `Functional`. -/
def TokenType.of_alphabeticals (s : String) : TokenType :=
  match s with
  | "pi" => .Numeric
  | _ => .Functional

/-- Operator arity classification, from `enum OperatorType`. -/
inductive OperatorType where
  | Unary
  | Binary
  | NoOp
  deriving DecidableEq, Repr

/-- `OperatorType::of_operator`: classify an operator string by its first
character (the Rust loop grabs the first char and breaks; an empty string
yields the default `' '`). -/
def OperatorType.of_operator (operator : String) : OperatorType :=
  let c : Char := match operator.data with
    | [] => ' '
    | ch :: _ => ch
  match TokenType.of_char c with
  | .Alphabetical => .Unary
  | _ =>
    if operator = "+" ∨ operator = "-" ∨ operator = "*" ∨ operator = "/" ∨
       operator = "^" then .Binary
    else .NoOp

/-- Operator associativity, from `enum OperatorAssoc`. -/
inductive OperatorAssoc where
  | LeftAssoc
  | RightAssoc
  deriving DecidableEq, Repr

/-- `operator_precedence`: `^ → 4`, `* / → 3`, `+ - → 2`, fallback `1`.
Rust uses `i32`; the values are tiny, so `Int` models it exactly. -/
def operator_precedence (operator : String) : Int :=
  if operator = "^" then 4
  else if operator = "*" ∨ operator = "/" then 3
  else if operator = "+" ∨ operator = "-" then 2
  else 1

/-- `operator_assoc`: `^` is right-associative, everything else left. -/
def operator_assoc (operator : String) : OperatorAssoc :=
  if operator = "^" then .RightAssoc else .LeftAssoc

/-- Exact rational value of the IEEE-754 binary64 constant `Float::pi()`. -/
def pi_f64 : ℚ := 884279719003555 / 281474976710656

/-- Exact rational value of the IEEE-754 binary64 constant `Float::e()`. -/
def e_f64 : ℚ := 6121026514868073 / 2251799813685248

/-- `constant_value`: named constants resolved at node construction. -/
def constant_value (constant : String) : Option ℚ :=
  if constant = "pi" then some pi_f64
  else if constant = "e" then some e_f64
  else none

/-- Value of a digit run read most-significant first. -/
def digitsToNat (l : List Char) : Nat :=
  l.foldl (fun acc c => acc * 10 + (c.toNat - '0'.toNat)) 0

/-- Model of Rust's `from_str::<f64>` on this program's token alphabet:
a string of digits with at most one decimal point (and at least one digit)
parses to its exact rational value; any other token text (operator symbols,
function/constant names) does not parse.  The rational result is exact; the
Rust parse rounds to the nearest `f64`, which agrees on the integer-valued
literals exercised by the claims.  The special spellings `inf`/`NaN` of the
Rust float parser are outside the model (IEEE special values have no
rational counterpart and no claim touches them).

`qparseVal` is the value read off a digits-and-dot character list: integer
part plus fractional part. -/
def qparseVal (cs : List Char) : ℚ :=
  let ip := cs.takeWhile (fun c => c ≠ '.')
  let fp := (cs.dropWhile (fun c => c ≠ '.')).drop 1
  (digitsToNat ip : ℚ) + (digitsToNat fp : ℚ) / (10 ^ fp.length : ℚ)

/-- The float parse itself: accept digit strings with at most one dot and
at least one digit; see `qparseVal`'s doc comment for the full modelling
discussion. -/
def qparse (s : String) : Option ℚ :=
  let cs := s.data
  if cs.any Char.isDigit ∧ (∀ c ∈ cs, Char.isDigit c ∨ c = '.') ∧
     cs.count '.' ≤ 1 then
    some (qparseVal cs)
  else none

/-- `struct Token(TokenType, String, i32)`: type, text, precedence. -/
structure Token where
  ttype : TokenType
  tstr : String
  tprec : Int
  deriving DecidableEq, Repr

/-- `struct ExprNode`: a binary expression-tree node.  The Rust `Box` is
elided (Lean inductives own their children the same way). -/
inductive ExprNode where
  | mk (token : String) (value : Option ℚ) (left : Option ExprNode)
      (right : Option ExprNode)

/-- Field accessor for `ExprNode.token`. -/
def ExprNode.token : ExprNode → String
  | .mk t _ _ _ => t

/-- Field accessor for `ExprNode.value`. -/
def ExprNode.value : ExprNode → Option ℚ
  | .mk _ v _ _ => v

/-- Field accessor for `ExprNode.left`. -/
def ExprNode.left : ExprNode → Option ExprNode
  | .mk _ _ l _ => l

/-- Field accessor for `ExprNode.right`. -/
def ExprNode.right : ExprNode → Option ExprNode
  | .mk _ _ _ r => r

/-- The value computed in `ExprNode::new`: try the float parse first, then
the constant table. -/
def resolve_value (token : String) : Option ℚ :=
  match qparse token with
  | some v => some v
  | none => constant_value token

/-- `ExprNode::new(token, left, right)`. -/
def ExprNode.new (token : String) (left right : Option ExprNode) : ExprNode :=
  ExprNode.mk token (resolve_value token) left right

/-- `struct ExprTree`: an optional root node. -/
structure ExprTree where
  root : Option ExprNode

/-- `ExprTree::new`. -/
def ExprTree.new (root : Option ExprNode) : ExprTree :=
  ⟨root⟩

/-- One pass of `ExprTree::parse_tokens`' scanning loop, structured over a
fuel argument so that the definition is structurally recursive (each loop
iteration consumes at least one character, so `fuel = length` suffices; the
wrapper `ExprTree.parse_tokens` supplies it).  A `Numeric`/`Alphabetical`
character starts a greedy run over its class (the Rust inner `while` with
`i = j - 1`); `Operator` and paren characters become single tokens; any
other character is skipped. -/
def scanLoop : Nat → List Char → List Token
  | 0, _ => []
  | _ + 1, [] => []
  | fuel + 1, c :: cs =>
    match TokenType.of_char c with
    | .Operator =>
      let op_str := String.mk [c]
      Token.mk .Operator op_str (operator_precedence op_str) :: scanLoop fuel cs
    | .Numeric =>
      let run := cs.takeWhile (fun nc => TokenType.of_char nc == .Numeric)
      Token.mk .Numeric (String.mk (c :: run)) 0 ::
        scanLoop fuel (cs.drop run.length)
    | .Alphabetical =>
      let run := cs.takeWhile (fun nc => TokenType.of_char nc == .Alphabetical)
      let alpha_str := String.mk (c :: run)
      Token.mk (TokenType.of_alphabeticals alpha_str) alpha_str 0 ::
        scanLoop fuel (cs.drop run.length)
    | .LeftParen => Token.mk .LeftParen "(" 0 :: scanLoop fuel cs
    | .RightParen => Token.mk .RightParen ")" 0 :: scanLoop fuel cs
    | _ => scanLoop fuel cs

/-- `ExprTree::parse_tokens`: scan the whole expression. -/
def ExprTree.parse_tokens (expression : String) : List Token :=
  scanLoop expression.data.length expression.data

/-- The `Operator` arm's inner loop of `ExprTree::build_rpn`: pop operators
that win the precedence/associativity comparison to the output; the first
token that loses is pushed back and stops the loop.  Returns the tokens
popped to the output (in pop order) and the remaining stack. -/
def popOps (tprec : Int) : List Token → List Token × List Token
  | [] => ([], [])
  | o2 :: rest =>
    if o2.ttype == .Operator &&
       ((operator_assoc o2.tstr == .LeftAssoc && decide (tprec ≤ o2.tprec)) ||
        decide (tprec < o2.tprec)) then
      let (out, st) := popOps tprec rest
      (o2 :: out, st)
    else ([], o2 :: rest)

/-- The `RightParen` arm's inner loop of `ExprTree::build_rpn`: pop tokens
to the output until a `(` is popped (and discarded); popping from an empty
stack is the `fail!("Parenthesis mismatch!")`, modelled as `none`. -/
def popUntilParen : List Token → Option (List Token × List Token)
  | [] => none
  | o2 :: rest =>
    if o2.ttype == .LeftParen then some ([], rest)
    else
      match popUntilParen rest with
      | none => none
      | some (out, st) => some (o2 :: out, st)

/-- One token step of `ExprTree::build_rpn`'s main loop, acting on the
state `(output_queue, input_stack)`; `none` models the paren-mismatch
abort. -/
def sy_step (st : List Token × List Token) (t : Token) :
    Option (List Token × List Token) :=
  let output_queue := st.1
  let input_stack := st.2
  match t.ttype with
  | .Numeric => some (output_queue ++ [t], input_stack)
  | .Functional => some (output_queue, t :: input_stack)
  | .Operator =>
    let (popped, stack) := popOps t.tprec input_stack
    some (output_queue ++ popped, t :: stack)
  | .LeftParen => some (output_queue, t :: input_stack)
  | .RightParen =>
    match popUntilParen input_stack with
    | none => none
    | some (popped, stack) => some (output_queue ++ popped, stack)
  | _ => some (output_queue, input_stack)

/-- Run `sy_step` over the whole token sequence. -/
def sy_run : List Token → List Token × List Token →
    Option (List Token × List Token)
  | [], st => some st
  | t :: ts, st =>
    match sy_step st t with
    | none => none
    | some st' => sy_run ts st'

/-- The final drain loop of `ExprTree::build_rpn`: pop the remaining stack
to the output; a leftover paren is the `fail!("Parenthesis mismatch!")`,
modelled as `none`. -/
def drainStack : List Token → Option (List Token)
  | [] => some []
  | o2 :: rest =>
    match o2.ttype with
    | .LeftParen | .RightParen => none
    | _ => (drainStack rest).map (o2 :: ·)

/-- `ExprTree::build_rpn`: shunting-yard conversion of the infix token
sequence to postfix; `none` models the paren-mismatch aborts. -/
def ExprTree.build_rpn (tokens : List Token) : Option (List Token) :=
  match sy_run tokens ([], []) with
  | none => none
  | some (output_queue, input_stack) =>
    match drainStack input_stack with
    | none => none
    | some rest => some (output_queue ++ rest)

/-- One token step of `ExprTree::from_rpn`'s loop on the operand stack
(`Vec::pop` returns an `Option`, so an underfull stack silently yields
`None` children — faithfully reproduced here).  `Operator` pops `right`
then `left`; `Functional` pops only `right`; other token kinds are
ignored. -/
def rpn_step (stack : List ExprNode) (t : Token) : List ExprNode :=
  match t.ttype with
  | .Numeric => ExprNode.new t.tstr none none :: stack
  | .Operator =>
    match stack with
    | [] => [ExprNode.new t.tstr none none]
    | [a] => [ExprNode.new t.tstr none (some a)]
    | a :: b :: rest => ExprNode.new t.tstr (some b) (some a) :: rest
  | .Functional =>
    match stack with
    | [] => [ExprNode.new t.tstr none none]
    | a :: rest => ExprNode.new t.tstr none (some a) :: rest
  | _ => stack

/-- `ExprTree::from_rpn`: fold the postfix sequence into an operand stack,
then take `stack.get(0)` — the *bottom* of the stack (`List.getLast?` in
this model, where the list head is the `Vec`'s end).  `Vec::get` on an
empty vector is an out-of-bounds abort, modelled as `none`. -/
def ExprTree.from_rpn (rpn : List Token) : Option ExprTree :=
  let stack := rpn.foldl rpn_step []
  match stack.getLast? with
  | none => none
  | some n => some (ExprTree.new (some n))

/-- `ExprTree::build`: tokenize, convert to postfix, build the tree;
`none` models any abort along the way. -/
def ExprTree.build (expression : String) : Option ExprTree :=
  match ExprTree.build_rpn (ExprTree.parse_tokens expression) with
  | none => none
  | some rpn => ExprTree.from_rpn rpn

/-- The distinct `fail!` aborts of evaluation. -/
inductive EvalErr where
  | NoValue
  | InvalidUnary
  deriving DecidableEq, Repr

/-- The transcendental `f64` functions used by `eval_unary`, kept as
parameters: evaluating them exactly is outside the rational model and no
claim depends on their values. -/
structure TransFns where
  ln : ℚ → ℚ
  log2 : ℚ → ℚ
  log10 : ℚ → ℚ
  sin : ℚ → ℚ
  cos : ℚ → ℚ
  tan : ℚ → ℚ

/-- Rust `f64::signum` on non-NaN values: `1.0` for non-negative (the model
has no `-0.0`), `-1.0` for negative. -/
def qsignum (v : ℚ) : ℚ := if v < 0 then -1 else 1

/-- Model of `f64::powf` on the cases where it is exact: a non-negative
integer exponent yields the exact power (the claims only exponentiate small
integers, where binary64 `powf` returns exactly this). -/
def fpow (b e : ℚ) : ℚ :=
  if e.den = 1 ∧ 0 ≤ e.num then b ^ e.num.toNat else 0

/-- `ExprTree::eval_unary`: apply a unary operator/function by name; the
`fail!("Invalid unary operator")` fallback is the `.error`. -/
def ExprTree.eval_unary (t : TransFns) (operator : String) (value : ℚ) :
    Except EvalErr ℚ :=
  if operator = "-" then .ok (-value)
  else if operator = "ln" then .ok (t.ln value)
  else if operator = "lg" then .ok (t.log2 value)
  else if operator = "log" then .ok (t.log10 value)
  else if operator = "sin" then .ok (t.sin value)
  else if operator = "cos" then .ok (t.cos value)
  else if operator = "tan" then .ok (t.tan value)
  else if operator = "csc" then .ok (1 / t.sin value)
  else if operator = "sec" then .ok (1 / t.cos value)
  else if operator = "cot" then .ok (1 / t.tan value)
  else if operator = "neg" then .ok (-value)
  else if operator = "sgn" then .ok (qsignum value)
  else .error .InvalidUnary

/-- `ExprTree::eval_binary`: apply a binary operator by name; an unknown
name falls through to `0.0` (this is dead code for the five operator
strings classified `Binary`, reproduced faithfully). -/
def ExprTree.eval_binary (operator : String) (lhs rhs : ℚ) : ℚ :=
  if operator = "+" then lhs + rhs
  else if operator = "-" then lhs - rhs
  else if operator = "*" then lhs * rhs
  else if operator = "/" then lhs / rhs
  else if operator = "^" then fpow lhs rhs
  else 0

/-- `ExprTree::eval_node`: post-order recursive evaluation.  A node with a
`value` returns it; otherwise the operator name is classified, a missing
`right` child is the `fail!("No available value...")`, a `Binary` operator
with no `left` child is applied as unary, and the `NoOp` fallback silently
returns `0.0` (reproduced faithfully — see the claims about it). -/
def ExprTree.eval_node (t : TransFns) : ExprNode → Except EvalErr ℚ
  | .mk token value left right =>
    match value with
    | some v => .ok v
    | none =>
      match right with
      | none => .error .NoValue
      | some r =>
        match OperatorType.of_operator token with
        | .Unary =>
          (ExprTree.eval_node t r).bind (ExprTree.eval_unary t token)
        | .Binary =>
          match left with
          | none => (ExprTree.eval_node t r).bind (ExprTree.eval_unary t token)
          | some l =>
            (ExprTree.eval_node t l).bind (fun vl =>
              (ExprTree.eval_node t r).map (fun vr =>
                ExprTree.eval_binary token vl vr))
        | .NoOp => .ok 0

/-- `ExprTree::eval`: an empty tree evaluates to `0.0`. -/
def ExprTree.eval (tree : ExprTree) (t : TransFns) : Except EvalErr ℚ :=
  match tree.root with
  | none => .ok 0
  | some node => ExprTree.eval_node t node

/-- An arbitrary instantiation of the transcendental parameters, used when
a closed statement needs a concrete `TransFns`; the inputs under test never
reach these functions. -/
def transDefault : TransFns :=
  ⟨fun _ => 0, fun _ => 0, fun _ => 0, fun _ => 0, fun _ => 0, fun _ => 0⟩

/-- The shape invariant of spec §3 as a recursively checked predicate on a
node and its descendants: a node with `value` present has no children, and
a node with `value` absent always has a `right` child.  (The remaining
clause of the spec sentence — `left` is present iff the operator is used
in binary form — is definitional in this program: an interior node *is*
used in binary form exactly when its `left` is present, cf. `eval_node`.) -/
def ExprNode.wellShaped : ExprNode → Bool
  | .mk _ value left right =>
    (match value with
     | some _ => left.isNone && right.isNone
     | none => right.isSome)
    && (match left with | none => true | some l => l.wellShaped)
    && (match right with | none => true | some r => r.wellShaped)

/-- A token whose text resolves to no value in `ExprNode::new` (the case
of genuine operator symbols and function names). -/
def token_value_free (t : Token) : Bool := (resolve_value t.tstr).isNone

/-- Structural validity of a postfix token sequence, tracked against the
operand-stack depth `n`: every `Operator` token finds two operands, every
`Functional` token one; `Numeric` texts resolve to values and
operator/function texts do not.  Other token kinds are ignored by the tree
builder, matching `from_rpn`'s `_ => {}` arm. -/
def rpnValidAux : Nat → List Token → Bool
  | _, [] => true
  | n, t :: rest =>
    match t.ttype with
    | .Numeric => (resolve_value t.tstr).isSome && rpnValidAux (n + 1) rest
    | .Operator => decide (2 ≤ n) && token_value_free t && rpnValidAux (n - 1) rest
    | .Functional => decide (1 ≤ n) && token_value_free t && rpnValidAux n rest
    | _ => rpnValidAux n rest

/-- A structurally valid postfix sequence, starting from an empty stack. -/
def rpnValid (rpn : List Token) : Bool := rpnValidAux 0 rpn

/-- Dyck check of the parenthesis subsequence of a token list, carrying the
current nesting depth: a `RightParen` at depth 0 is unmatched, and a
nonzero final depth means unmatched `LeftParen`s. -/
def parenDepthRun : Nat → List Token → Option Nat
  | d, [] => some d
  | d, t :: ts =>
    match t.ttype with
    | .LeftParen => parenDepthRun (d + 1) ts
    | .RightParen =>
      match d with
      | 0 => none
      | d' + 1 => parenDepthRun d' ts
    | _ => parenDepthRun d ts

/-- Balanced parentheses: the Dyck check succeeds and ends at depth 0. -/
def parenBalanced (ts : List Token) : Bool := parenDepthRun 0 ts == some 0

/-- Number of `LeftParen` tokens held on the shunting-yard operator stack. -/
def stackOpens (l : List Token) : Nat :=
  (l.filter (fun t => t.ttype == .LeftParen)).length

/-- The operator stack never holds a `RightParen` (they are consumed
immediately); an invariant of `build_rpn`'s main loop. -/
def noRightParen (l : List Token) : Prop := ∀ t ∈ l, t.ttype ≠ .RightParen

/-- A dot-free digit run parses to its integer value. -/
lemma qparseVal_of_digits (cs : List Char) (n : ℕ) (h : ∀ c ∈ cs, c ≠ '.')
    (hn : digitsToNat cs = n) : qparseVal cs = (n : ℚ) := by
  unfold qparseVal
  rw [List.takeWhile_eq_self_iff.mpr (by simpa using h),
      List.dropWhile_eq_nil_iff.mpr (by simpa using h)]
  subst hn
  simp [digitsToNat]

/-- `fpow` at a natural exponent is the exact power. -/
lemma fpow_natCast (b : ℚ) (n : ℕ) : fpow b (n : ℚ) = b ^ n := by
  simp [fpow]

/-- `List.getLast?` returns an element of the list. -/
lemma mem_of_getLast?_eq (l : List ExprNode) (a : ExprNode)
    (h : l.getLast? = some a) : a ∈ l := by
  rcases List.mem_getLast?_eq_getLast (x := a) (by rw [h]; rfl) with ⟨hne, rfl⟩
  exact List.getLast_mem hne

/-- `takeWhile` over a run followed by a non-run remainder consumes exactly
the run. -/
lemma takeWhile_run (p : Char → Bool) (cs rest : List Char)
    (h1 : ∀ c ∈ cs, p c = true)
    (h2 : ∀ r rs, rest = r :: rs → p r = false) :
    (cs ++ rest).takeWhile p = cs := by
  induction cs with
  | nil =>
    cases rest with
    | nil => rfl
    | cons r rs => simp [List.takeWhile, h2 r rs rfl]
  | cons c cs ih =>
    have hc := h1 c (by simp)
    simp [List.takeWhile_cons, hc, ih (fun x hx => h1 x (by simp [hx]))]

/-- Processing a structurally valid postfix sequence preserves
well-shapedness of every node on the operand stack. -/
lemma foldl_rpn_step_wellShaped :
    ∀ (rpn : List Token) (stack : List ExprNode),
      (∀ x ∈ stack, x.wellShaped = true) →
      rpnValidAux stack.length rpn = true →
      ∀ x ∈ rpn.foldl rpn_step stack, x.wellShaped = true := by
  intro rpn
  induction rpn with
  | nil => intro stack hs _ x hx; exact hs x hx
  | cons t rest ih =>
    intro stack hs hv x hx
    rw [List.foldl_cons] at hx
    cases ht : t.ttype with
    | Numeric =>
      simp only [rpnValidAux, ht, Bool.and_eq_true] at hv
      obtain ⟨hres, hv⟩ := hv
      obtain ⟨v, hvv⟩ := Option.isSome_iff_exists.mp hres
      refine ih (rpn_step stack t) ?_ ?_ x hx
      · intro y hy
        simp only [rpn_step, ht] at hy
        rcases List.mem_cons.mp hy with hy | hy
        · subst hy
          simp [ExprNode.new, ExprNode.wellShaped, hvv]
        · exact hs y hy
      · simpa [rpn_step, ht] using hv
    | Operator =>
      simp only [rpnValidAux, ht, Bool.and_eq_true] at hv
      obtain ⟨⟨hlen, hfree⟩, hv⟩ := hv
      have hlen' : 2 ≤ stack.length := of_decide_eq_true hlen
      have hres : resolve_value t.tstr = none :=
        Option.isNone_iff_eq_none.mp hfree
      match stack, hlen' with
      | a :: b :: stk, _ =>
        have ha := hs a (by simp)
        have hb := hs b (by simp)
        refine ih (rpn_step (a :: b :: stk) t) ?_ ?_ x hx
        · intro y hy
          simp only [rpn_step, ht] at hy
          rcases List.mem_cons.mp hy with hy | hy
          · subst hy
            simp [ExprNode.new, ExprNode.wellShaped, hres, ha, hb]
          · exact hs y (by simp [hy])
        · simp only [rpn_step, ht, List.length_cons]
          simpa using hv
    | Functional =>
      simp only [rpnValidAux, ht, Bool.and_eq_true] at hv
      obtain ⟨⟨hlen, hfree⟩, hv⟩ := hv
      have hlen' : 1 ≤ stack.length := of_decide_eq_true hlen
      have hres : resolve_value t.tstr = none :=
        Option.isNone_iff_eq_none.mp hfree
      match stack, hlen' with
      | a :: stk, _ =>
        have ha := hs a (by simp)
        refine ih (rpn_step (a :: stk) t) ?_ ?_ x hx
        · intro y hy
          simp only [rpn_step, ht] at hy
          rcases List.mem_cons.mp hy with hy | hy
          · subst hy
            simp [ExprNode.new, ExprNode.wellShaped, hres, ha]
          · exact hs y (by simp [hy])
        · simpa [rpn_step, ht] using hv
    | Alphabetical =>
      simp only [rpnValidAux, ht] at hv
      refine ih stack hs hv x ?_
      simpa [rpn_step, ht] using hx
    | LeftParen =>
      simp only [rpnValidAux, ht] at hv
      refine ih stack hs hv x ?_
      simpa [rpn_step, ht] using hx
    | RightParen =>
      simp only [rpnValidAux, ht] at hv
      refine ih stack hs hv x ?_
      simpa [rpn_step, ht] using hx
    | Invalid =>
      simp only [rpnValidAux, ht] at hv
      refine ih stack hs hv x ?_
      simpa [rpn_step, ht] using hx

/-- The precedence loop pops only `Operator` tokens, so the number of open
parens on the stack is unchanged, and no `RightParen` appears. -/
lemma popOps_stack (p : Int) :
    ∀ s : List Token, stackOpens (popOps p s).2 = stackOpens s ∧
      (noRightParen s → noRightParen (popOps p s).2) := by
  intro s
  induction s with
  | nil => simp [popOps]
  | cons o2 rest ih =>
    by_cases hc : (o2.ttype == TokenType.Operator &&
       ((operator_assoc o2.tstr == OperatorAssoc.LeftAssoc && decide (p ≤ o2.tprec)) ||
        decide (p < o2.tprec))) = true
    · have hop : o2.ttype = .Operator := by
        have := (Bool.and_eq_true _ _).mp hc
        exact beq_iff_eq.mp this.1
      constructor
      · simp only [popOps, hc, if_true]
        have h2 : (popOps p rest).2 = (let (out, st) := popOps p rest; (o2 :: out, st)).2 := by
          rcases popOps p rest with ⟨a, b⟩
          rfl
        rw [← h2, ih.1]
        simp [stackOpens, hop]
      · intro hnr
        simp only [popOps, hc, if_true]
        have h2 : (popOps p rest).2 = (let (out, st) := popOps p rest; (o2 :: out, st)).2 := by
          rcases popOps p rest with ⟨a, b⟩
          rfl
        rw [← h2]
        exact ih.2 (fun t htm => hnr t (by simp [htm]))
    · constructor
      · simp [popOps, hc]
      · intro hnr
        simpa [popOps, hc] using hnr

/-- A successful `popUntilParen` removes exactly one `LeftParen` from the
stack (the popped prefix contains none), and preserves the absence of
`RightParen`s. -/
lemma popUntilParen_some :
    ∀ (s popped s' : List Token), popUntilParen s = some (popped, s') →
      stackOpens s = stackOpens s' + 1 ∧ (noRightParen s → noRightParen s') := by
  intro s
  induction s with
  | nil => intro popped s' h; simp [popUntilParen] at h
  | cons o2 rest ih =>
    intro popped s' h
    cases hl : (o2.ttype == TokenType.LeftParen) with
    | true =>
      have hop : o2.ttype = .LeftParen := beq_iff_eq.mp hl
      simp only [popUntilParen, hl, if_true] at h
      obtain ⟨rfl, rfl⟩ := Prod.mk.injEq .. ▸ Option.some.inj h
      refine ⟨by simp [stackOpens, hop], ?_⟩
      intro hnr t htm
      exact hnr t (List.mem_cons_of_mem _ htm)
    | false =>
      rw [popUntilParen] at h
      rw [hl] at h
      simp only [Bool.false_eq_true, if_false] at h
      cases hrec : popUntilParen rest with
      | none => rw [hrec] at h; simp at h
      | some pr =>
        rcases pr with ⟨out, st⟩
        rw [hrec] at h
        obtain ⟨rfl, rfl⟩ := Prod.mk.injEq .. ▸ Option.some.inj h
        obtain ⟨h1, h2⟩ := ih out st hrec
        have hne : o2.ttype ≠ .LeftParen := fun hh => by simp [hh] at hl
        refine ⟨by simpa [stackOpens, hne] using h1, ?_⟩
        intro hnr
        exact h2 (fun t htm => hnr t (List.mem_cons_of_mem _ htm))

/-- A failing `popUntilParen` means the stack holds no `LeftParen` at all. -/
lemma popUntilParen_none :
    ∀ s : List Token, popUntilParen s = none → stackOpens s = 0 := by
  intro s
  induction s with
  | nil => intro _; simp [stackOpens]
  | cons o2 rest ih =>
    intro h
    cases hl : (o2.ttype == TokenType.LeftParen) with
    | true => simp [popUntilParen, hl] at h
    | false =>
      rw [popUntilParen] at h
      rw [hl] at h
      simp only [Bool.false_eq_true, if_false] at h
      cases hrec : popUntilParen rest with
      | none => simpa [stackOpens, hl] using ih hrec
      | some pr => rcases pr with ⟨out, st⟩; rw [hrec] at h; simp at h

/-- A successful final drain means no parenthesis token was left on the
stack. -/
lemma drainStack_some :
    ∀ (s out : List Token), drainStack s = some out → noRightParen s →
      stackOpens s = 0 := by
  intro s
  induction s with
  | nil => intro out _ _; simp [stackOpens]
  | cons o2 rest ih =>
    intro out h hnr
    have hnr' : noRightParen rest := fun t htm => hnr t (List.mem_cons_of_mem _ htm)
    cases ht : o2.ttype with
    | LeftParen => simp [drainStack, ht] at h
    | RightParen => exact absurd ht (hnr o2 (List.mem_cons_self _ _))
    | Numeric =>
      simp only [drainStack, ht] at h
      cases hrec : drainStack rest with
      | none => rw [hrec] at h; simp at h
      | some o => simpa [stackOpens, ht] using ih o hrec hnr'
    | Alphabetical =>
      simp only [drainStack, ht] at h
      cases hrec : drainStack rest with
      | none => rw [hrec] at h; simp at h
      | some o => simpa [stackOpens, ht] using ih o hrec hnr'
    | Functional =>
      simp only [drainStack, ht] at h
      cases hrec : drainStack rest with
      | none => rw [hrec] at h; simp at h
      | some o => simpa [stackOpens, ht] using ih o hrec hnr'
    | Operator =>
      simp only [drainStack, ht] at h
      cases hrec : drainStack rest with
      | none => rw [hrec] at h; simp at h
      | some o => simpa [stackOpens, ht] using ih o hrec hnr'
    | Invalid =>
      simp only [drainStack, ht] at h
      cases hrec : drainStack rest with
      | none => rw [hrec] at h; simp at h
      | some o => simpa [stackOpens, ht] using ih o hrec hnr'

/-- Running the shunting-yard loop tracks the Dyck check: starting from a
stack holding `d` open parens (and no `RightParen`), a successful run means
the Dyck check of the consumed tokens succeeds and ends at the number of
opens left on the final stack. -/
lemma sy_run_balance :
    ∀ (ts out s out' s' : List Token),
      sy_run ts (out, s) = some (out', s') → noRightParen s →
      parenDepthRun (stackOpens s) ts = some (stackOpens s') ∧
        noRightParen s' := by
  intro ts
  induction ts with
  | nil =>
    intro out s out' s' h hnr
    simp only [sy_run] at h
    obtain ⟨rfl, rfl⟩ := Prod.mk.injEq .. ▸ Option.some.inj h
    exact ⟨rfl, hnr⟩
  | cons t ts ih =>
    intro out s out' s' h hnr
    cases ht : t.ttype with
    | Numeric =>
      simp only [sy_run, sy_step, ht] at h
      obtain ⟨h1, h2⟩ := ih (out ++ [t]) s out' s' h hnr
      exact ⟨by simpa [parenDepthRun, ht] using h1, h2⟩
    | Functional =>
      simp only [sy_run, sy_step, ht] at h
      have hnr2 : noRightParen (t :: s) := by
        intro x hx
        rcases List.mem_cons.mp hx with rfl | hx
        · simp [ht]
        · exact hnr x hx
      obtain ⟨h1, h2⟩ := ih out (t :: s) out' s' h hnr2
      rw [show stackOpens (t :: s) = stackOpens s by simp [stackOpens, ht]] at h1
      exact ⟨by simpa [parenDepthRun, ht] using h1, h2⟩
    | Operator =>
      simp only [sy_run, sy_step, ht] at h
      obtain ⟨ho, hono⟩ := popOps_stack t.tprec s
      have hnr2 : noRightParen (t :: (popOps t.tprec s).2) := by
        intro x hx
        rcases List.mem_cons.mp hx with rfl | hx
        · simp [ht]
        · exact hono hnr x hx
      have h' : sy_run ts (out ++ (popOps t.tprec s).1,
          t :: (popOps t.tprec s).2) = some (out', s') := by
        rcases hpo : popOps t.tprec s with ⟨a, b⟩
        rw [hpo] at h
        simpa using h
      obtain ⟨h1, h2⟩ := ih _ _ out' s' h' hnr2
      rw [show stackOpens (t :: (popOps t.tprec s).2) = stackOpens s by
        rw [show stackOpens (t :: (popOps t.tprec s).2) =
          stackOpens (popOps t.tprec s).2 by simp [stackOpens, ht]]
        exact ho] at h1
      exact ⟨by simpa [parenDepthRun, ht] using h1, h2⟩
    | LeftParen =>
      simp only [sy_run, sy_step, ht] at h
      have hnr2 : noRightParen (t :: s) := by
        intro x hx
        rcases List.mem_cons.mp hx with rfl | hx
        · simp [ht]
        · exact hnr x hx
      obtain ⟨h1, h2⟩ := ih out (t :: s) out' s' h hnr2
      rw [show stackOpens (t :: s) = stackOpens s + 1 by
        simp [stackOpens, ht]] at h1
      exact ⟨by simpa [parenDepthRun, ht] using h1, h2⟩
    | RightParen =>
      simp only [sy_run, sy_step, ht] at h
      cases hpu : popUntilParen s with
      | none => rw [hpu] at h; simp at h
      | some pr =>
        rcases pr with ⟨popped, s₂⟩
        rw [hpu] at h
        simp only at h
        obtain ⟨hop, hnr₂⟩ := popUntilParen_some s popped s₂ hpu
        obtain ⟨h1, h2⟩ := ih _ s₂ out' s' h (hnr₂ hnr)
        refine ⟨?_, h2⟩
        rw [hop]
        simpa [parenDepthRun, ht] using h1
    | Alphabetical =>
      simp only [sy_run, sy_step, ht] at h
      obtain ⟨h1, h2⟩ := ih out s out' s' h hnr
      exact ⟨by simpa [parenDepthRun, ht] using h1, h2⟩
    | Invalid =>
      simp only [sy_run, sy_step, ht] at h
      obtain ⟨h1, h2⟩ := ih out s out' s' h hnr
      exact ⟨by simpa [parenDepthRun, ht] using h1, h2⟩

/-- A successful infix-to-postfix conversion implies balanced parens. -/
lemma build_rpn_some_balanced (ts out : List Token)
    (h : ExprTree.build_rpn ts = some out) : parenBalanced ts = true := by
  unfold ExprTree.build_rpn at h
  cases hr : sy_run ts ([], []) with
  | none => rw [hr] at h; simp at h
  | some st =>
    rcases st with ⟨oq, is⟩
    rw [hr] at h
    simp only at h
    cases hd : drainStack is with
    | none => rw [hd] at h; simp at h
    | some rest =>
      obtain ⟨h1, h2⟩ := sy_run_balance ts [] [] oq is hr (fun t htm => absurd htm (List.not_mem_nil t))
      have h0 : stackOpens is = 0 := drainStack_some is rest hd h2
      rw [show stackOpens ([] : List Token) = 0 from rfl, h0] at h1
      simp [parenBalanced, h1]

/-- A scan over characters that all classify as `Invalid` emits no token. -/
lemma scanLoop_invalid :
    ∀ (fuel : Nat) (cs : List Char),
      (∀ c ∈ cs, TokenType.of_char c = .Invalid) → scanLoop fuel cs = [] := by
  intro fuel
  induction fuel with
  | zero => intro cs _; rfl
  | succ fuel ih =>
    intro cs h
    cases cs with
    | nil => rfl
    | cons c cs' =>
      have hc := h c (List.mem_cons_self _ _)
      simp only [scanLoop, hc]
      exact ih cs' (fun x hx => h x (List.mem_cons_of_mem _ hx))

/-- Claim C1: at the failing input `"2%3"` — whose root is an interior node
with the unknown operator symbol `%` — `eval` silently returns `0.0`
(the `NoOp` fallback of `eval_node`), contradicting the requirement that it
fail with an UnknownOperator condition. -/
theorem c1_unknown_operator_silently_zero (tf : TransFns) :
    (ExprTree.build "2%3").map (fun t => t.eval tf) = some (.ok 0) ∧
      OperatorType.of_operator "%" = .NoOp :=
  ⟨rfl, rfl⟩

/-- Claim C2: at the failing postfix input produced from `"+"` — an
operator token arriving on an empty operand stack — the tree builder pops
`None` twice and silently builds a childless, value-less `+` node instead
of failing cleanly with a StructuralError. -/
theorem c2_underflow_builds_childless_node :
    ExprTree.build "+" =
      some (ExprTree.new (some (ExprNode.mk "+" none none none))) :=
  rfl

/-- Claim C3, counterexample: the build pipeline applied to `"+"` produces
a node with `value` absent and no `right` child, refuting the claim that
every node produced by the pipeline satisfies the shape invariant. -/
theorem c3_counterexample :
    ExprTree.build "+" =
      some (ExprTree.new (some (ExprNode.mk "+" none none none))) ∧
      (ExprNode.mk "+" none none none).wellShaped = false :=
  ⟨rfl, rfl⟩

/-- Claim C3, amended: every `ExprNode` produced by the tree builder from a
*structurally valid* postfix sequence — operator tokens find two operands,
functional tokens one, `Numeric` texts resolve to values and
operator/function texts do not — satisfies the shape invariant: a node with
`value` present has no children, and a node with `value` absent always has
a `right` child. -/
theorem c3_amended_wellShaped (rpn : List Token) (tree : ExprTree)
    (node : ExprNode) (hv : rpnValid rpn = true)
    (ht : ExprTree.from_rpn rpn = some tree) (hr : tree.root = some node) :
    node.wellShaped = true := by
  simp only [ExprTree.from_rpn] at ht
  cases hl : (rpn.foldl rpn_step []).getLast? with
  | none => rw [hl] at ht; simp at ht
  | some n =>
    rw [hl] at ht
    have htr := Option.some.inj ht
    have hnode : node = n := by
      rw [← htr] at hr
      exact (Option.some.inj hr).symm
    rw [hnode]
    exact foldl_rpn_step_wellShaped rpn []
      (fun x hx => absurd hx (List.not_mem_nil x)) hv n
      (mem_of_getLast?_eq _ n hl)

/-- Concrete structurally valid postfix sequence `2 3 +`. -/
def rpnPlusExample : List Token :=
  [Token.mk .Numeric "2" 0, Token.mk .Numeric "3" 0, Token.mk .Operator "+" 2]

/-- Witness for the amended C3 at the concrete sequence `2 3 +`. -/
theorem c3_amended_witness :
    rpnValid rpnPlusExample = true ∧
      (ExprNode.new "+" (some (ExprNode.new "2" none none))
        (some (ExprNode.new "3" none none))).wellShaped = true :=
  ⟨rfl, c3_amended_wellShaped rpnPlusExample
    (ExprTree.new (some (ExprNode.new "+" (some (ExprNode.new "2" none none))
      (some (ExprNode.new "3" none none)))))
    (ExprNode.new "+" (some (ExprNode.new "2" none none))
      (some (ExprNode.new "3" none none)))
    rfl rfl rfl⟩

/-- Claim C4, counterexample: the alphabetical run `"e"` — a known constant
name — is *not* reclassified as `Numeric`; the tokenizer emits a
`Functional` token for it. -/
theorem c4_counterexample :
    ExprTree.parse_tokens "e" = [Token.mk .Functional "e" 0] ∧
      TokenType.Functional ≠ TokenType.Numeric :=
  ⟨rfl, by decide⟩

/-- Claim C4, amended: every accumulated run of contiguous lowercase
letters is emitted as a single token classified by `of_alphabeticals`,
which reclassifies exactly the run `"pi"` as `Numeric`; every other run —
including the constant name `"e"` — becomes a `Functional` token.  (The
constant `e` is still resolved to its value later, at node construction,
via `constant_value`.) -/
theorem c4_amended_alpha_run :
    (∀ (fuel : Nat) (c : Char) (cs rest : List Char),
        TokenType.of_char c = .Alphabetical →
        (∀ x ∈ cs, TokenType.of_char x = .Alphabetical) →
        (∀ r rs, rest = r :: rs → TokenType.of_char r ≠ .Alphabetical) →
        scanLoop (fuel + 1) (c :: (cs ++ rest)) =
          Token.mk (TokenType.of_alphabeticals (String.mk (c :: cs)))
            (String.mk (c :: cs)) 0 :: scanLoop fuel rest) ∧
      TokenType.of_alphabeticals "pi" = .Numeric ∧
      (∀ s : String, s ≠ "pi" → TokenType.of_alphabeticals s = .Functional) := by
  refine ⟨?_, rfl, ?_⟩
  · intro fuel c cs rest hc hcs hrest
    have hrun : (cs ++ rest).takeWhile
        (fun nc => TokenType.of_char nc == TokenType.Alphabetical) = cs :=
      takeWhile_run _ cs rest
        (fun x hx => beq_iff_eq.mpr (hcs x hx))
        (fun r rs hr => by
          have hne := hrest r rs hr
          simp only [beq_eq_false_iff_ne, ne_eq]
          exact hne)
    simp only [scanLoop, hc, hrun]
    rw [List.drop_left]
  · intro s hs
    simp [TokenType.of_alphabeticals, hs]

/-- Witness for the amended C4 at the concrete run `"e"`. -/
theorem c4_amended_witness :
    scanLoop (0 + 1) ('e' :: ([] ++ [])) =
      Token.mk (TokenType.of_alphabeticals (String.mk ['e']))
        (String.mk ['e']) 0 :: scanLoop 0 [] :=
  c4_amended_alpha_run.1 0 'e' [] [] (by decide) (by decide)
    (fun r rs h => List.noConfusion h)

/-- Claim C5, counterexample: `eval(build("3--2"))` is `-5.0`, not `5.0`:
each `-` is tokenized as its own operator token, the first is popped to the
output by the equal-precedence left-associative comparison, and the
resulting postfix `3 - 2 -` negates `3` first and then subtracts `2`. -/
theorem c5_counterexample :
    (ExprTree.build "3--2").map (fun t => t.eval transDefault) =
        some (.ok (-5)) ∧
      (ExprTree.build "3--2").map (fun t => t.eval transDefault) ≠
        some (.ok 5) := by
  have h : (ExprTree.build "3--2").map (fun t => t.eval transDefault) =
      some (.ok (-(qparseVal "3".data) - qparseVal "2".data)) := rfl
  rw [h, qparseVal_of_digits "3".data 3 (by decide) rfl,
      qparseVal_of_digits "2".data 2 (by decide) rfl]
  constructor
  · norm_num
  · intro hc
    rw [Option.some.injEq, Except.ok.injEq] at hc
    norm_num at hc

/-- Claim C5, amended: the `-` symbol is disambiguated by node shape — an
interior `-` node with `left` absent negates its `right` child, otherwise
it subtracts — so that `eval(build("-5")) = -5.0`, while
`eval(build("3--2")) = -5.0` (the postfix form is `3 - 2 -`: the unary
negation of `3` forms first, then `2` is subtracted). -/
theorem c5_amended_minus_disambiguation :
    (∀ (tf : TransFns) (r : ExprNode),
        ExprTree.eval_node tf (ExprNode.mk "-" none none (some r)) =
          (ExprTree.eval_node tf r).map (fun v => -v)) ∧
      (∀ (tf : TransFns) (l r : ExprNode),
        ExprTree.eval_node tf (ExprNode.mk "-" none (some l) (some r)) =
          (ExprTree.eval_node tf l).bind (fun vl =>
            (ExprTree.eval_node tf r).map (fun vr => vl - vr))) ∧
      (∀ tf : TransFns,
        (ExprTree.build "-5").map (fun t => t.eval tf) = some (.ok (-5))) ∧
      (∀ tf : TransFns,
        (ExprTree.build "3--2").map (fun t => t.eval tf) = some (.ok (-5))) := by
  refine ⟨?_, ?_, ?_, ?_⟩
  · intro tf r
    have hstep : ExprTree.eval_node tf (ExprNode.mk "-" none none (some r)) =
        (ExprTree.eval_node tf r).bind (ExprTree.eval_unary tf "-") := rfl
    rw [hstep]
    cases ExprTree.eval_node tf r with
    | error e => rfl
    | ok v => rfl
  · intro tf l r
    rfl
  · intro tf
    have h : (ExprTree.build "-5").map (fun t => t.eval tf) =
        some (.ok (-(qparseVal "5".data))) := rfl
    rw [h, qparseVal_of_digits "5".data 5 (by decide) rfl]
    norm_num
  · intro tf
    have h : (ExprTree.build "3--2").map (fun t => t.eval tf) =
        some (.ok (-(qparseVal "3".data) - qparseVal "2".data)) := rfl
    rw [h, qparseVal_of_digits "3".data 3 (by decide) rfl,
        qparseVal_of_digits "2".data 2 (by decide) rfl]
    norm_num

/-- Claim C6: a token sequence with unbalanced parentheses — in particular
the tokenizations of `"(2+3"` and `"2+3)"` — makes the infix-to-postfix
conversion fail (either when a `)` empties the stack without finding a
`(`, or when a paren remains at the final drain); it never silently
produces a postfix sequence. -/
theorem c6_paren_mismatch :
    (∀ ts : List Token, parenBalanced ts = false →
        ExprTree.build_rpn ts = none) ∧
      ExprTree.build_rpn (ExprTree.parse_tokens "(2+3") = none ∧
      ExprTree.build_rpn (ExprTree.parse_tokens "2+3)") = none := by
  refine ⟨?_, rfl, rfl⟩
  intro ts hb
  cases hr : ExprTree.build_rpn ts with
  | none => rfl
  | some out =>
    rw [build_rpn_some_balanced ts out hr] at hb
    exact absurd hb (by simp)

/-- Witness for C6 at the concrete unbalanced token sequence `)`. -/
theorem c6_witness :
    parenBalanced [Token.mk .RightParen ")" 0] = false ∧
      ExprTree.build_rpn [Token.mk .RightParen ")" 0] = none :=
  ⟨rfl, c6_paren_mismatch.1 [Token.mk .RightParen ")" 0] rfl⟩

/-- Claim C7: `^` is right-associative — consecutive `^` at equal
precedence group right-to-left — so `eval(build("2^3^2"))` is `512.0`
(`2^(3^2)`), not `64.0` (`(2^3)^2`). -/
theorem c7_pow_right_assoc :
    operator_assoc "^" = .RightAssoc ∧
      (∀ tf : TransFns,
        (ExprTree.build "2^3^2").map (fun t => t.eval tf) = some (.ok 512)) ∧
      (∀ tf : TransFns,
        (ExprTree.build "2^3^2").map (fun t => t.eval tf) ≠ some (.ok 64)) := by
  have key : ∀ tf : TransFns,
      (ExprTree.build "2^3^2").map (fun t => t.eval tf) =
        some (.ok (fpow (qparseVal "2".data)
          (fpow (qparseVal "3".data) (qparseVal "2".data)))) := fun tf => rfl
  have hval : fpow (qparseVal "2".data)
      (fpow (qparseVal "3".data) (qparseVal "2".data)) = 512 := by
    rw [qparseVal_of_digits "2".data 2 (by decide) rfl,
        qparseVal_of_digits "3".data 3 (by decide) rfl]
    rw [fpow_natCast]
    rw [show ((3 : ℕ) : ℚ) ^ 2 = ((9 : ℕ) : ℚ) by push_cast; norm_num]
    rw [fpow_natCast]
    push_cast
    norm_num
  refine ⟨rfl, fun tf => by rw [key tf, hval], fun tf => ?_⟩
  rw [key tf, hval]
  intro hc
  rw [Option.some.injEq, Except.ok.injEq] at hc
  norm_num at hc

/-- Claim C8: multiplication binds tighter than addition (precedence 3
versus 2), and the pipeline respects it: `eval(build("2+3*4")) = 14.0`. -/
theorem c8_precedence :
    operator_precedence "+" < operator_precedence "*" ∧
      ∀ tf : TransFns,
        (ExprTree.build "2+3*4").map (fun t => t.eval tf) = some (.ok 14) := by
  refine ⟨by decide, fun tf => ?_⟩
  have h : (ExprTree.build "2+3*4").map (fun t => t.eval tf) =
      some (.ok (qparseVal "2".data +
        qparseVal "3".data * qparseVal "4".data)) := rfl
  rw [h, qparseVal_of_digits "2".data 2 (by decide) rfl,
      qparseVal_of_digits "3".data 3 (by decide) rfl,
      qparseVal_of_digits "4".data 4 (by decide) rfl]
  norm_num

/-- Claim C9: an `ExprTree` whose root is absent evaluates to `0.0`. -/
theorem c9_empty_tree_evals_zero (tf : TransFns) :
    (ExprTree.new none).eval tf = .ok 0 :=
  rfl

/-- Claim C10: when the tokenization leaves no operand node on the
builder's stack (the empty string, or a string of `Invalid` characters),
`build` aborts at the out-of-bounds `stack.get(0)` (modelled as `none`)
rather than returning an empty `ExprTree`; indeed `from_rpn` never
returns a tree with an absent root. -/
theorem c10_empty_stack_aborts :
    (∀ s : String, (∀ c ∈ s.data, TokenType.of_char c = .Invalid) →
        ExprTree.build s = none) ∧
      (∀ (rpn : List Token) (tree : ExprTree),
        ExprTree.from_rpn rpn = some tree → tree.root ≠ none) := by
  constructor
  · intro s h
    have hp : ExprTree.parse_tokens s = [] := scanLoop_invalid _ _ h
    unfold ExprTree.build
    rw [hp]
    rfl
  · intro rpn tree h
    simp only [ExprTree.from_rpn] at h
    cases hl : (rpn.foldl rpn_step []).getLast? with
    | none => rw [hl] at h; simp at h
    | some n =>
      rw [hl] at h
      rw [← Option.some.inj h]
      simp [ExprTree.new]

/-- Witness for C10 at the concrete all-`Invalid` input `" "` (and at a
concrete successful `from_rpn` run). -/
theorem c10_witness :
    (∀ c ∈ (" " : String).data, TokenType.of_char c = .Invalid) ∧
      ExprTree.build " " = none :=
  ⟨by decide, c10_empty_stack_aborts.1 " " (by decide)⟩
